import Mathlib

/-!
Verification of `ChildIDExtractor` (`src/main.py`).

The development shallowly embeds the extraction heuristic of
`ChildInfoExtractor`: text sanitization (`_sanitize_text`), child-id
extraction from an `href` (`_extract_child_id`), name resolution
(`_find_child_name`), the per-anchor extraction loop (`extract`),
the session's accumulated list (`all_children`), and the CSV export
(`export_to_csv`).  HTML parsing by BeautifulSoup is an external
collaborator: the embedding works on the parsed document tree, a list
of nodes, with anchors selected in document (preorder) order.

Strings are modelled as `List Char`.
-/

namespace ChildExtractor

abbrev Str := List Char

/-- The characters Python's `str.split()` treats as whitespace:
ASCII whitespace, the C1 information separators, NEL, NBSP and the
Unicode space characters. -/
def pyWsChars : List Char :=
  [' ', '\t', '\n', '\r', '\x0b', '\x0c',
   '\x1c', '\x1d', '\x1e', '\x1f', '\x85', '\xa0',
   '\u1680', '\u2000', '\u2001', '\u2002', '\u2003', '\u2004', '\u2005',
   '\u2006', '\u2007', '\u2008', '\u2009', '\u200a', '\u2028', '\u2029',
   '\u202f', '\u205f', '\u3000']

def isWs (c : Char) : Bool := pyWsChars.contains c

/-- `text.replace('\xa0', ' ')` from `_sanitize_text`. -/
def replaceNbsp (l : Str) : Str :=
  l.map (fun c => if c = '\xa0' then ' ' else c)

/-- Python `str.split()` (no argument): the maximal runs of
non-whitespace characters, in order.  `acc` holds the reversed current
run. -/
def splitWsAux (acc : Str) : Str → List Str
  | [] => if acc = [] then [] else [acc.reverse]
  | c :: cs =>
    if isWs c then
      if acc = [] then splitWsAux [] cs else acc.reverse :: splitWsAux [] cs
    else
      splitWsAux (c :: acc) cs

def splitWs (l : Str) : List Str := splitWsAux [] l

/-- The tail of Python `' '.join(ws)`: a leading separator before every
remaining word. -/
def sepJoin : List Str → Str
  | [] => []
  | w :: ws => ' ' :: (w ++ sepJoin ws)

/-- Python `' '.join(ws)`. -/
def joinSp : List Str → Str
  | [] => []
  | w :: ws => w ++ sepJoin ws

/-- `_sanitize_text`: `' '.join(text.replace('\xa0', ' ').split())`.
(`None` input is modelled by the empty list, which the code maps to `""`.) -/
def sanitize (l : Str) : Str :=
  joinSp (splitWs (replaceNbsp l))

/-!
The document tree.  BeautifulSoup's parse result is modelled as a list
of root nodes; an element carries its tag, its raw attributes and its
children.  Multi-valued `class` attributes are split on whitespace, as
BeautifulSoup does.
-/

inductive Node where
  | text : Str → Node
  | elem : Str → List (Str × Str) → List Node → Node

def getAttr (attrs : List (Str × Str)) (name : Str) : Option Str :=
  (attrs.find? (fun p => p.1 == name)).map (fun p => p.2)

def attrsOf : Node → List (Str × Str)
  | .text _ => []
  | .elem _ a _ => a

def isTag (t : Str) : Node → Bool
  | .text _ => false
  | .elem tg _ _ => tg == t

def classesOf (n : Node) : List Str :=
  match getAttr (attrsOf n) "class".toList with
  | some v => splitWs v
  | none => []

mutual

/-- `tag.text`: the concatenation of all descendant strings. -/
def nodeText : Node → Str
  | .text s => s
  | .elem _ _ cs => nodeTextL cs

def nodeTextL : List Node → Str
  | [] => []
  | n :: ns => nodeText n ++ nodeTextL ns

end

mutual

/-- All strict descendants of a node, in document (preorder) order. -/
def descendants : Node → List Node
  | .text _ => []
  | .elem _ _ cs => descendantsL cs

def descendantsL : List Node → List Node
  | [] => []
  | c :: cs => c :: (descendants c ++ descendantsL cs)

end

mutual

/-- Every node paired with its chain of ancestor elements (innermost
first), in document (preorder) order. -/
def nodesWithAnc (anc : List Node) : Node → List (List Node × Node)
  | .text s => [(anc, .text s)]
  | .elem t a cs => (anc, .elem t a cs) :: nodesWithAncL (.elem t a cs :: anc) cs

def nodesWithAncL (anc : List Node) : List Node → List (List Node × Node)
  | [] => []
  | c :: cs => nodesWithAnc anc c ++ nodesWithAncL anc cs

end

/-- BeautifulSoup's `tag.string`: the sole string of a tag that has
exactly one child, recursively through single-child tags. -/
def nodeString : Node → Option Str
  | .text s => some s
  | .elem _ _ [c] => nodeString c
  | .elem _ _ _ => none

/-- The ASCII fragment of the regex class `\w`. -/
def isWordChar (c : Char) : Bool := c.isAlphanum || c = '_'

/-- The `href` attribute with BeautifulSoup's `get('href', '')` default. -/
def hrefOf (a : Node) : Str := (getAttr (attrsOf a) "href".toList).getD []

/-- `pat` occurs as a contiguous substring of the second argument. -/
def containsSub (pat : Str) : Str → Bool
  | [] => pat == []
  | c :: cs => pat.isPrefixOf (c :: cs) || containsSub pat cs

/-- Anchors selected by `soup.find_all('a', href=re.compile(r'/child/'))`:
`a` tags whose `href` is present and contains `/child/`. -/
def isChildAnchor (n : Node) : Bool :=
  isTag "a".toList n &&
    (match getAttr (attrsOf n) "href".toList with
     | some h => containsSub "/child/".toList h
     | none => false)

def childAnchors (doc : List Node) : List (List Node × Node) :=
  (nodesWithAncL [] doc).filter (fun p => isChildAnchor p.2)

/-- A match of `/child/([^/]+)` anchored at the front of `l`: the
maximal nonempty run of non-`/` characters following the literal
`/child/`. -/
def childIdAt (l : Str) : Option Str :=
  if "/child/".toList.isPrefixOf l then
    if (l.drop 7).takeWhile (fun d => d != '/') = [] then none
    else some ((l.drop 7).takeWhile (fun d => d != '/'))
  else none

/-- `_extract_child_id`: `re.search(r'/child/([^/]+)', href)`, i.e. the
leftmost position where the whole pattern matches. -/
def childIdFrom : Str → Option Str
  | [] => none
  | c :: cs =>
    match childIdAt (c :: cs) with
    | some r => some r
    | none => childIdFrom cs

/-- `find('div', {'class': ['col-lg-8', 'col-xs-8']})`. -/
def isNameDiv (n : Node) : Bool :=
  isTag "div".toList n &&
    (classesOf n).any (fun c => c == "col-lg-8".toList || c == "col-xs-8".toList)

/-- `find('div', text=re.compile(r'\w+'))`: a `div` whose `.string`
contains a word character. -/
def isWordDiv (n : Node) : Bool :=
  isTag "div".toList n &&
    (match nodeString n with
     | some s => s.any isWordChar
     | none => false)

/-- `find_parent('div', {'class': 'row'})`. -/
def isRowDiv (n : Node) : Bool :=
  isTag "div".toList n && (classesOf n).contains "row".toList

/-- `_find_child_name`: the tiered name resolution over the anchor. -/
def findChildName (a : Node) : Str :=
  match (descendants a).find? isNameDiv with
  | some d => sanitize (nodeText d)
  | none =>
    match (descendants a).find? isWordDiv with
    | some d => sanitize (nodeText d)
    | none =>
      let t := sanitize (nodeText a)
      if t = [] then "Unknown".toList else t

/-- `str.replace(pat, '')` for a nonempty `pat`: remove every
(leftmost, non-overlapping) occurrence.  The fuel argument of
`removeAllF` is one unit per consumed character, so `l.length` is
always enough. -/
def removeAllF (pat : Str) : Nat → Str → Str
  | 0, l => l
  | _, [] => []
  | fuel + 1, c :: cs =>
    if pat ≠ [] ∧ pat.isPrefixOf (c :: cs) then
      removeAllF pat fuel (cs.drop (pat.length - 1))
    else
      c :: removeAllF pat fuel cs

def removeAll (pat l : Str) : Str := removeAllF pat l.length l

/-- The loop stripping `"overview"`, `"profile"`, `"details"` from the
ancestor row's text (in that order). -/
def stripCommon (t : Str) : Str :=
  removeAll "details".toList (removeAll "profile".toList (removeAll "overview".toList t))

/-- The body of `extract`'s per-anchor loop: `none` when the anchor is
skipped for lack of a child id, otherwise the `(id, name)` pair,
including the ancestor-row recovery for empty or `"Unknown"` names. -/
def processAnchor (anc : List Node) (a : Node) : Option (Str × Str) :=
  match childIdFrom (hrefOf a) with
  | none => none
  | some cid =>
    let name := findChildName a
    let name2 :=
      if name = [] ∨ name = "Unknown".toList then
        match anc.find? isRowDiv with
        | some row =>
          let t := stripCommon (sanitize (nodeText row))
          if t = [] then name else t
        | none => name
      else name
    some (cid, name2)

/-- `extract` on a parsed document: the `(id, name)` pairs of this call,
in document order of the matched anchors. -/
def extractPairs (doc : List Node) : List (Str × Str) :=
  (childAnchors doc).filterMap (fun p => processAnchor p.1 p.2)

/-!
The session: `ChildInfoExtractor`'s `all_children` list and the
operations that touch it.  A record's `extraction_time` string is the
wall-clock stamp taken at creation; it enters the embedding as the
`now` argument of an extract call.
-/

structure ChildRec where
  id : Str
  name : Str
  time : Str
deriving DecidableEq

structure Session where
  all_children : List ChildRec
deriving DecidableEq

/-- The records produced by one `extract` call.  A `none` document
models the early-return paths: empty `html_content`, or
`BeautifulSoup` raising, both of which yield `[]`. -/
def extractRecords (doc : Option (List Node)) (now : Str) : List ChildRec :=
  match doc with
  | none => []
  | some d => (extractPairs d).map (fun p => ⟨p.1, p.2, now⟩)

/-! The CSV writer (`export_to_csv`, `csv.DictWriter` with the default
`excel` dialect): comma delimiter, `\r\n` row terminator, minimal
quoting with doubled quote characters. -/

def needsQuote (f : Str) : Bool :=
  f.any (fun c => c == ',' || c == '"' || c == '\r' || c == '\n')

def escapeQuotes : Str → Str
  | [] => []
  | c :: cs => if c = '"' then '"' :: '"' :: escapeQuotes cs else c :: escapeQuotes cs

def encodeField (f : Str) : Str :=
  if needsQuote f then '"' :: (escapeQuotes f ++ ['"']) else f

def writeRow : List Str → Str
  | [] => ['\r', '\n']
  | f :: fs => encodeField f ++ (if fs = [] then ['\r', '\n'] else ',' :: writeRow fs)

def writeRows : List (List Str) → Str
  | [] => []
  | r :: rs => writeRow r ++ writeRows rs

def csvHeader : List Str := ["id".toList, "name".toList, "extraction_time".toList]

def fieldsOf (r : ChildRec) : List Str := [r.id, r.name, r.time]

/-- The CSV text `export_to_csv` writes: header row, then one row per
accumulated record, in session order. -/
def writeCsv (recs : List ChildRec) : Str :=
  writeRows (csvHeader :: recs.map fieldsOf)

/-- `export_to_csv`: fails (returns `""`, writes nothing) when
`all_children` is empty, otherwise writes the CSV text. -/
def exportCsvContent (s : Session) : Option Str :=
  if s.all_children = [] then none else some (writeCsv s.all_children)

/-- `export_to_excel`: fails when `all_children` is empty, then when
pandas is unavailable; otherwise writes one sheet of the same three
columns with a header row. -/
def exportExcelRows (s : Session) (pandasAvailable : Bool) : Option (List (List Str)) :=
  if s.all_children = [] then none
  else if pandasAvailable then some (csvHeader :: s.all_children.map fieldsOf)
  else none

inductive Op where
  | extract (doc : Option (List Node)) (now : Str)
  | exportCsv
  | exportExcel (pandasAvailable : Bool)

inductive OpResult where
  | records (rs : List ChildRec)
  | csvFile (contents : Option Str)
  | excelFile (rows : Option (List (List Str)))

/-- One operation on the session.  `extract` appends this call's
records to `all_children` and returns them; the export operations read
`all_children` and leave it untouched. -/
def step (s : Session) : Op → Session × OpResult
  | .extract doc now =>
    let recs := extractRecords doc now
    (⟨s.all_children ++ recs⟩, .records recs)
  | .exportCsv => (s, .csvFile (exportCsvContent s))
  | .exportExcel avail => (s, .excelFile (exportExcelRows s avail))

def run (s : Session) : List Op → Session
  | [] => s
  | op :: ops => run (step s op).1 ops

/-- The per-call return values of a sequence of `extract` calls. -/
def callOutputs (s : Session) : List (Option (List Node) × Str) → List (List ChildRec)
  | [] => []
  | c :: rest =>
    extractRecords c.1 c.2 :: callOutputs (step s (.extract c.1 c.2)).1 rest

def runCalls (s : Session) (cs : List (Option (List Node) × Str)) : Session :=
  run s (cs.map (fun c => Op.extract c.1 c.2))

/-! The CSV reader used to state the round-trip property: a standard
RFC-4180-style parser over the same dialect (quoted fields may contain
delimiters, quotes are doubled, rows end with `\r\n`).  The parsers
take fuel so that they are structural; the wrappers supply enough. -/

/-- Parse the remainder of a quoted field (the opening quote already
consumed): doubled quotes are literal quotes, a lone quote closes. -/
def parseQuoted : Str → Str × Str
  | [] => ([], [])
  | c :: rest =>
    if c = '"' then
      match rest with
      | [] => ([], [])
      | c2 :: rest2 =>
        if c2 = '"' then
          let p := parseQuoted rest2
          ('"' :: p.1, p.2)
        else ([], rest)
    else
      let p := parseQuoted rest
      (c :: p.1, p.2)

def isFieldSep (c : Char) : Bool := c == ',' || c == '\r' || c == '\n'

def parseField (l : Str) : Str × Str :=
  match l with
  | [] => ([], [])
  | c :: rest =>
    if c = '"' then parseQuoted rest
    else ((c :: rest).takeWhile (fun d => !isFieldSep d),
          (c :: rest).dropWhile (fun d => !isFieldSep d))

def parseRowF : Nat → Str → List Str × Str
  | 0, l => ([], l)
  | fuel + 1, l =>
    let p := parseField l
    match p.2 with
    | [] => ([p.1], [])
    | c :: rest2 =>
      if c = ',' then
        let q := parseRowF fuel rest2
        (p.1 :: q.1, q.2)
      else if c = '\r' ∧ rest2.head? = some '\n' then
        ([p.1], rest2.tail)
      else
        ([p.1], rest2)

def parseCsvF : Nat → Str → List (List Str)
  | 0, _ => []
  | fuel + 1, l =>
    if l = [] then []
    else
      let r := parseRowF (l.length + 1) l
      r.1 :: parseCsvF fuel r.2

def parseCsv (l : Str) : List (List Str) := parseCsvF l.length l

/-! Concrete documents used in the claim-level theorems below. -/

/-- `<a href="/child/5/"><div class="col-lg-8"> </div></a>`: a
well-formed child anchor whose class-marked name division holds only
whitespace. -/
def c1BadDoc : List Node :=
  [.elem "a".toList [("href".toList, "/child/5/".toList)]
    [.elem "div".toList [("class".toList, "col-lg-8".toList)]
      [.text " ".toList]]]

/-- Two well-formed child anchors with distinct ids and proper name
divisions. -/
def c1GoodDoc : List Node :=
  [.elem "a".toList [("href".toList, "/child/42/".toList)]
    [.elem "div".toList [("class".toList, "col-lg-8".toList)]
      [.text "Jane Doe".toList]],
   .elem "a".toList [("href".toList, "/child/43/".toList)]
    [.elem "div".toList [("class".toList, "col-xs-8".toList)]
      [.text "Ann Lee".toList]]]

/-- The spec's example anchor `<a href="/child/7/">  overview profile  </a>`. -/
def c4Anchor : Node :=
  .elem "a".toList [("href".toList, "/child/7/".toList)]
    [.text "  overview profile  ".toList]

def c4Doc : List Node := [c4Anchor]

/-- `<div class="row">overview profile<a href="/child/9/"></a></div>`:
a textless anchor inside a row whose text is exactly the stripped
literals. -/
def c10Doc : List Node :=
  [.elem "div".toList [("class".toList, "row".toList)]
    [.text "overview profile".toList,
     .elem "a".toList [("href".toList, "/child/9/".toList)] []]]

/-- An anchor whose `href` contains `/child/` but matches no id. -/
def badAnchor : Node := .elem "a".toList [("href".toList, "/child/".toList)] []

/-- A well-formed child anchor resolving to a record. -/
def okAnchor : Node :=
  .elem "a".toList [("href".toList, "/child/3/".toList)] [.text "Bob".toList]

/-- Records with delimiter and quote characters in the name, for the
CSV round-trip witness. -/
def c9Recs : List ChildRec :=
  [⟨"5".toList, ("Doe, Jane " ++ "\"JJ\"").toList, "2025-04-29 10:00:00".toList⟩,
   ⟨"6".toList, "Ann".toList, "2025-04-29 10:00:01".toList⟩]

/-! Facts about `sanitize`, towards idempotence (claim C8). -/

theorem joinSp_cons_cons (w w2 : Str) (ws : List Str) :
    joinSp (w :: w2 :: ws) = w ++ ' ' :: joinSp (w2 :: ws) := by
  simp [joinSp, sepJoin]

/-- Every group produced by the splitter is a nonempty run of
non-whitespace characters (given that the accumulator is one as well). -/
theorem splitWsAux_groups (l : Str) :
    ∀ acc, (∀ c ∈ acc, isWs c = false) →
      ∀ g ∈ splitWsAux acc l, g ≠ [] ∧ ∀ c ∈ g, isWs c = false := by
  induction l with
  | nil =>
    intro acc hacc g hg
    simp only [splitWsAux] at hg
    split at hg
    · simp at hg
    · next hne =>
      simp only [List.mem_singleton] at hg
      subst hg
      refine ⟨by simpa using hne, ?_⟩
      intro c hc
      exact hacc c (List.mem_reverse.mp hc)
  | cons c cs ih =>
    intro acc hacc g hg
    simp only [splitWsAux] at hg
    by_cases hws : isWs c
    · rw [if_pos hws] at hg
      split at hg
      · exact ih [] (by simp) g hg
      · next hne =>
        rcases List.mem_cons.mp hg with h | h
        · subst h
          refine ⟨by simpa using hne, ?_⟩
          intro d hd
          exact hacc d (List.mem_reverse.mp hd)
        · exact ih [] (by simp) g h
    · rw [if_neg hws] at hg
      refine ih (c :: acc) ?_ g hg
      intro d hd
      rcases List.mem_cons.mp hd with h | h
      · subst h; simpa using hws
      · exact hacc d h

theorem splitWs_groups (l : Str) :
    ∀ g ∈ splitWs l, g ≠ [] ∧ ∀ c ∈ g, isWs c = false :=
  splitWsAux_groups l [] (by simp)

/-- Scanning a run of non-whitespace characters pushes it onto the
accumulator. -/
theorem splitWsAux_word (w : Str) (hw : ∀ c ∈ w, isWs c = false) :
    ∀ acc r, splitWsAux acc (w ++ r) = splitWsAux (w.reverse ++ acc) r := by
  induction w with
  | nil => intro acc r; simp
  | cons c w ih =>
    intro acc r
    have hc : isWs c = false := hw c (by simp)
    have hstep : splitWsAux acc (c :: (w ++ r)) = splitWsAux (c :: acc) (w ++ r) := by
      simp [splitWsAux, hc]
    rw [List.cons_append, hstep,
      ih (fun d hd => hw d (List.mem_cons_of_mem _ hd)) (c :: acc) r]
    simp

/-- Scanning a whitespace character flushes the accumulator. -/
theorem splitWsAux_ws_cons (c : Char) (hc : isWs c = true) (acc r : Str) :
    splitWsAux acc (c :: r) =
      if acc = [] then splitWsAux [] r else acc.reverse :: splitWsAux [] r := by
  simp [splitWsAux, hc]

/-- Splitting the space-joined image of a list of nonempty
whitespace-free words recovers exactly those words. -/
theorem splitWs_joinSp (ws : List Str)
    (h : ∀ w ∈ ws, w ≠ [] ∧ ∀ c ∈ w, isWs c = false) :
    splitWs (joinSp ws) = ws := by
  induction ws with
  | nil => simp [splitWs, joinSp, splitWsAux]
  | cons w ws ih =>
    rcases h w (by simp) with ⟨hne, hfree⟩
    cases ws with
    | nil =>
      show splitWsAux [] (joinSp [w]) = [w]
      have hjoin : joinSp [w] = w ++ [] := by simp [joinSp, sepJoin]
      rw [hjoin, splitWsAux_word w hfree [] []]
      simp only [splitWsAux, List.append_nil]
      rw [if_neg (by simpa using hne)]
      simp
    | cons w2 ws2 =>
      have hrest : ∀ v ∈ w2 :: ws2, v ≠ [] ∧ ∀ c ∈ v, isWs c = false :=
        fun v hv => h v (List.mem_cons_of_mem _ hv)
      show splitWsAux [] (joinSp (w :: w2 :: ws2)) = w :: w2 :: ws2
      rw [joinSp_cons_cons, splitWsAux_word w hfree [] _,
        splitWsAux_ws_cons ' ' (by decide)]
      rw [if_neg (by simpa using hne)]
      have hih := ih hrest
      unfold splitWs at hih
      rw [hih]
      simp

/-- `replace('\xa0', ' ')` leaves a string without NBSP alone. -/
theorem replaceNbsp_eq_self (l : Str) (h : ∀ c ∈ l, c ≠ '\xa0') :
    replaceNbsp l = l := by
  induction l with
  | nil => simp [replaceNbsp]
  | cons c cs ih =>
    have h1 : c ≠ '\xa0' := h c (by simp)
    have h2 := ih (fun d hd => h d (List.mem_cons_of_mem _ hd))
    simp only [replaceNbsp, List.map_cons, if_neg h1]
    unfold replaceNbsp at h2
    rw [h2]

theorem sepJoin_no_nbsp (ws : List Str)
    (h : ∀ g ∈ ws, ∀ c ∈ g, isWs c = false) :
    ∀ c ∈ sepJoin ws, c ≠ '\xa0' := by
  induction ws with
  | nil => simp [sepJoin]
  | cons w ws ih =>
    intro c hc
    simp only [sepJoin, List.mem_cons, List.mem_append] at hc
    rcases hc with hc | hc | hc
    · subst hc; decide
    · have := h w (by simp) c hc
      intro hcc; rw [hcc] at this
      simp [isWs, pyWsChars] at this
    · exact ih (fun g hg => h g (List.mem_cons_of_mem _ hg)) c hc

theorem joinSp_no_nbsp (ws : List Str)
    (h : ∀ g ∈ ws, ∀ c ∈ g, isWs c = false) :
    ∀ c ∈ joinSp ws, c ≠ '\xa0' := by
  cases ws with
  | nil => simp [joinSp]
  | cons w ws =>
    intro c hc
    simp only [joinSp, List.mem_append] at hc
    rcases hc with hc | hc
    · have := h w (by simp) c hc
      intro hcc; rw [hcc] at this
      simp [isWs, pyWsChars] at this
    · exact sepJoin_no_nbsp ws (fun g hg => h g (List.mem_cons_of_mem _ hg)) c hc

/-- A sanitized string contains no NBSP, so a second NBSP replacement
is the identity. -/
theorem replaceNbsp_sanitize (l : Str) :
    replaceNbsp (sanitize l) = sanitize l :=
  replaceNbsp_eq_self _
    (joinSp_no_nbsp _
      (fun g hg => (splitWs_groups (replaceNbsp l) g hg).2))

/-- Sanitization is idempotent. -/
theorem sanitize_idem (l : Str) : sanitize (sanitize l) = sanitize l := by
  show joinSp (splitWs (replaceNbsp (sanitize l))) = sanitize l
  rw [replaceNbsp_sanitize]
  show joinSp (splitWs (joinSp (splitWs (replaceNbsp l)))) = _
  rw [splitWs_joinSp _ (splitWs_groups (replaceNbsp l))]
  rfl

/-- A string made only of NBSPs and newlines sanitizes to the empty
string. -/
theorem sanitize_ws_only (l : Str) (h : ∀ c ∈ l, c = '\xa0' ∨ c = '\n') :
    sanitize l = [] := by
  unfold sanitize splitWs
  suffices hsplit : splitWsAux [] (replaceNbsp l) = [] by
    rw [hsplit]; rfl
  induction l with
  | nil => simp [replaceNbsp, splitWsAux]
  | cons c cs ih =>
    have hrest : ∀ d ∈ cs, d = '\xa0' ∨ d = '\n' :=
      fun d hd => h d (List.mem_cons_of_mem _ hd)
    rcases h c (by simp) with hc | hc
    · subst hc
      have : replaceNbsp ('\xa0' :: cs) = ' ' :: replaceNbsp cs := by
        simp [replaceNbsp]
      rw [this, splitWsAux_ws_cons ' ' (by decide), if_pos rfl]
      exact ih hrest
    · subst hc
      have : replaceNbsp ('\n' :: cs) = '\n' :: replaceNbsp cs := by
        simp [replaceNbsp]
      rw [this, splitWsAux_ws_cons '\n' (by decide), if_pos rfl]
      exact ih hrest

/-! Round-trip lemmas for the CSV dialect (claim C9). -/

theorem takeWhile_append_all {p : Char → Bool} (xs ys : Str)
    (h : ∀ x ∈ xs, p x = true) :
    (xs ++ ys).takeWhile p = xs ++ ys.takeWhile p := by
  induction xs with
  | nil => simp
  | cons x xs ih =>
    rw [List.cons_append, List.takeWhile_cons, if_pos (h x (by simp)),
      ih (fun y hy => h y (List.mem_cons_of_mem _ hy)), List.cons_append]

theorem dropWhile_append_all {p : Char → Bool} (xs ys : Str)
    (h : ∀ x ∈ xs, p x = true) :
    (xs ++ ys).dropWhile p = ys.dropWhile p := by
  induction xs with
  | nil => simp
  | cons x xs ih =>
    rw [List.cons_append, List.dropWhile_cons, if_pos (h x (by simp))]
    exact ih (fun y hy => h y (List.mem_cons_of_mem _ hy))

theorem parseQuoted_escape (f : Str) :
    ∀ rest : Str, rest.head? ≠ some '"' →
      parseQuoted (escapeQuotes f ++ '"' :: rest) = (f, rest) := by
  induction f with
  | nil =>
    intro rest h
    show parseQuoted ('"' :: rest) = ([], rest)
    cases rest with
    | nil => rfl
    | cons c2 rest2 =>
      have hc2 : c2 ≠ '"' := fun hh => h (by simp [hh])
      simp [parseQuoted, hc2]
  | cons c f ih =>
    intro rest h
    by_cases hc : c = '"'
    · subst hc
      show parseQuoted ('"' :: '"' :: (escapeQuotes f ++ '"' :: rest)) = ('"' :: f, rest)
      rw [parseQuoted.eq_3, if_pos rfl, if_pos rfl, ih rest h]
    · have he : escapeQuotes (c :: f) = c :: escapeQuotes f := by
        simp [escapeQuotes, hc]
      rw [he, List.cons_append]
      cases hE : escapeQuotes f ++ '"' :: rest with
      | nil => simp at hE
      | cons d t =>
        rw [parseQuoted.eq_3, if_neg hc, ← hE, ih rest h]

theorem parseField_encode (f rest : Str)
    (hrest : rest = [] ∨ rest.head? = some ',' ∨ rest.head? = some '\r') :
    parseField (encodeField f ++ rest) = (f, rest) := by
  by_cases hq : needsQuote f = true
  · have hhead : rest.head? ≠ some '"' := by
      rcases hrest with h | h | h <;> simp [h]
    rw [encodeField, if_pos hq]
    have : ('"' :: (escapeQuotes f ++ ['"'])) ++ rest =
        '"' :: (escapeQuotes f ++ '"' :: rest) := by simp
    rw [this]
    simp only [parseField, if_pos rfl]
    exact parseQuoted_escape f rest hhead
  · rw [encodeField, if_neg hq]
    have hq2 : ∀ c ∈ f, c ≠ ',' ∧ c ≠ '"' ∧ c ≠ '\r' ∧ c ≠ '\n' := by
      intro c hc
      have hfalse : needsQuote f = false := by
        cases hnq : needsQuote f
        · rfl
        · exact absurd hnq hq
      have h1 : ∀ x ∈ f, ¬(x == ',' || x == '"' || x == '\r' || x == '\n') = true := by
        simpa only [needsQuote, List.any_eq_false] using hfalse
      have h2 := h1 c hc
      simp only [Bool.or_eq_true, beq_iff_eq, not_or] at h2
      obtain ⟨⟨⟨h2a, h2b⟩, h2c⟩, h2d⟩ := h2
      exact ⟨h2a, h2b, h2c, h2d⟩
    have hfree : ∀ c ∈ f, (!isFieldSep c) = true := by
      intro c hc
      rcases hq2 c hc with ⟨h1, _, h3, h4⟩
      simp [isFieldSep, h1, h3, h4]
    have hsep : rest.takeWhile (fun d => !isFieldSep d) = [] ∧
        rest.dropWhile (fun d => !isFieldSep d) = rest := by
      rcases hrest with h | h | h
      · simp [h]
      · cases rest with
        | nil => simp at h
        | cons r t =>
          simp only [List.head?_cons, Option.some_inj] at h
          subst h
          constructor <;> simp [List.takeWhile_cons, List.dropWhile_cons, isFieldSep]
      · cases rest with
        | nil => simp at h
        | cons r t =>
          simp only [List.head?_cons, Option.some_inj] at h
          subst h
          constructor <;> simp [List.takeWhile_cons, List.dropWhile_cons, isFieldSep]
    cases f with
    | nil =>
      simp only [List.nil_append]
      rcases hrest with h | h | h
      · simp [h, parseField]
      · cases rest with
        | nil => simp at h
        | cons r t =>
          simp only [List.head?_cons, Option.some_inj] at h
          subst h
          simp [parseField, List.takeWhile_cons, List.dropWhile_cons, isFieldSep]
      · cases rest with
        | nil => simp at h
        | cons r t =>
          simp only [List.head?_cons, Option.some_inj] at h
          subst h
          simp [parseField, List.takeWhile_cons, List.dropWhile_cons, isFieldSep]
    | cons c f2 =>
      have hcq : c ≠ '"' := (hq2 c (by simp)).2.1
      show parseField (c :: (f2 ++ rest)) = (c :: f2, rest)
      simp only [parseField, if_neg hcq]
      have hxs : c :: (f2 ++ rest) = (c :: f2) ++ rest := by simp
      rw [hxs, takeWhile_append_all _ _ hfree, dropWhile_append_all _ _ hfree,
        hsep.1, hsep.2, List.append_nil]

theorem parseRowF_write (fs : List Str) :
    ∀ fuel rest, fs ≠ [] → fs.length ≤ fuel →
      parseRowF fuel (writeRow fs ++ rest) = (fs, rest) := by
  induction fs with
  | nil => intro _ _ h _; exact absurd rfl h
  | cons f fs ih =>
    intro fuel rest _ hfuel
    cases fuel with
    | zero => simp at hfuel
    | succ k =>
      cases fs with
      | nil =>
        have hrow : writeRow [f] ++ rest = encodeField f ++ ('\r' :: '\n' :: rest) := by
          simp [writeRow]
        rw [hrow]
        simp only [parseRowF]
        rw [parseField_encode f ('\r' :: '\n' :: rest) (by simp)]
        dsimp only
        rw [if_neg (by decide), if_pos ⟨rfl, rfl⟩]
        rfl
      | cons f2 more =>
        have hrow : writeRow (f :: f2 :: more) ++ rest =
            encodeField f ++ (',' :: (writeRow (f2 :: more) ++ rest)) := by
          simp [writeRow]
        rw [hrow]
        simp only [parseRowF]
        rw [parseField_encode f (',' :: (writeRow (f2 :: more) ++ rest)) (by simp)]
        dsimp only
        rw [if_pos rfl, ih k rest (by simp) (by simpa using hfuel)]

theorem writeRow_ne_nil (fs : List Str) : writeRow fs ≠ [] := by
  cases fs with
  | nil => simp [writeRow]
  | cons f fs =>
    cases fs with
    | nil => simp [writeRow]
    | cons f2 more => simp [writeRow]

theorem length_le_writeRow (fs : List Str) : fs.length ≤ (writeRow fs).length := by
  induction fs with
  | nil => simp [writeRow]
  | cons f fs ih =>
    cases fs with
    | nil => simp [writeRow]
    | cons f2 more =>
      have hr : writeRow (f :: f2 :: more) =
          encodeField f ++ (',' :: writeRow (f2 :: more)) := by simp [writeRow]
      rw [hr]
      simp only [List.length_append, List.length_cons] at ih ⊢
      omega

theorem length_le_writeRows (rows : List (List Str)) :
    rows.length ≤ (writeRows rows).length := by
  induction rows with
  | nil => simp [writeRows]
  | cons r rs ih =>
    have h2 : 1 ≤ (writeRow r).length := by
      cases hr : writeRow r with
      | nil => exact absurd hr (writeRow_ne_nil r)
      | cons c t => simp
    simp only [writeRows, List.length_append, List.length_cons]
    omega

theorem parseCsvF_write (rows : List (List Str)) (h : ∀ r ∈ rows, r ≠ []) :
    ∀ fuel, rows.length ≤ fuel → parseCsvF fuel (writeRows rows) = rows := by
  induction rows with
  | nil =>
    intro fuel _
    cases fuel with
    | zero => rfl
    | succ k => simp [writeRows, parseCsvF]
  | cons r rs ih =>
    intro fuel hfuel
    cases fuel with
    | zero => simp at hfuel
    | succ k =>
      have hne : writeRow r ++ writeRows rs ≠ [] := by
        intro hh
        exact writeRow_ne_nil r (List.append_eq_nil.mp hh).1
      have hws : writeRows (r :: rs) = writeRow r ++ writeRows rs := by
        simp [writeRows]
      rw [hws]
      simp only [parseCsvF]
      rw [if_neg hne]
      have hfr : r.length ≤ (writeRow r ++ writeRows rs).length + 1 := by
        have := length_le_writeRow r
        simp only [List.length_append]
        omega
      rw [parseRowF_write r _ (writeRows rs) (h r (by simp)) hfr]
      dsimp only
      rw [ih (fun v hv => h v (List.mem_cons_of_mem _ hv)) k (by simpa using hfuel)]

/-- Writing any list of nonempty rows and re-parsing recovers the rows
exactly. -/
theorem parseCsv_writeRows (rows : List (List Str)) (h : ∀ r ∈ rows, r ≠ []) :
    parseCsv (writeRows rows) = rows :=
  parseCsvF_write rows h _ (length_le_writeRows rows)

/-! Helper lemmas on id extraction and the per-anchor loop. -/

theorem childIdAt_ne_nil {l cid : Str} (h : childIdAt l = some cid) : cid ≠ [] := by
  by_cases hp : ("/child/".toList.isPrefixOf l) = true
  · by_cases hc : (l.drop 7).takeWhile (fun d => d != '/') = []
    · rw [childIdAt, if_pos hp, if_pos hc] at h
      exact absurd h (by simp)
    · rw [childIdAt, if_pos hp, if_neg hc] at h
      have hx := Option.some_inj.mp h
      rw [← hx]
      exact hc
  · rw [childIdAt, if_neg hp] at h
    exact absurd h (by simp)

theorem childIdFrom_ne_nil (l : Str) : ∀ cid, childIdFrom l = some cid → cid ≠ [] := by
  induction l with
  | nil => intro cid h; simp [childIdFrom] at h
  | cons c cs ih =>
    intro cid h
    cases hA : childIdAt (c :: cs) with
    | some r =>
      rw [childIdFrom, hA] at h
      have hr : r = cid := Option.some_inj.mp h
      rw [← hr]
      exact childIdAt_ne_nil hA
    | none =>
      rw [childIdFrom, hA] at h
      exact ih cid h

theorem processAnchor_none_of_id_none {anc : List Node} {a : Node}
    (h : childIdFrom (hrefOf a) = none) : processAnchor anc a = none := by
  unfold processAnchor
  rw [h]

theorem processAnchor_isSome {anc : List Node} {a : Node}
    (h : (childIdFrom (hrefOf a)).isSome = true) :
    (processAnchor anc a).isSome = true := by
  unfold processAnchor
  cases hC : childIdFrom (hrefOf a) with
  | none => rw [hC] at h; simp at h
  | some cid => rfl

theorem processAnchor_id {anc : List Node} {a : Node} {r : Str × Str}
    (h : processAnchor anc a = some r) : childIdFrom (hrefOf a) = some r.1 := by
  unfold processAnchor at h
  cases hC : childIdFrom (hrefOf a) with
  | none => rw [hC] at h; exact absurd h (by simp)
  | some cid =>
    rw [hC] at h
    have hr := Option.some_inj.mp h
    rw [← hr]

theorem filterMap_eq_map_some {α β : Type _} (f : α → Option β) :
    ∀ l : List α, (∀ x ∈ l, (f x).isSome = true) →
      l.map f = (l.filterMap f).map some := by
  intro l
  induction l with
  | nil => intro _; rfl
  | cons x l ih =>
    intro h
    cases hx : f x with
    | none =>
      have := h x (by simp)
      rw [hx] at this
      simp at this
    | some b =>
      rw [List.map_cons, hx, List.filterMap_cons_some hx, List.map_cons,
        ih (fun y hy => h y (List.mem_cons_of_mem _ hy))]

/-! Helper lemmas on the session. -/

theorem step_exists_append (s : Session) (op : Op) :
    ∃ u, (step s op).1.all_children = s.all_children ++ u := by
  cases op with
  | extract doc now => exact ⟨extractRecords doc now, rfl⟩
  | exportCsv => exact ⟨[], (List.append_nil _).symm⟩
  | exportExcel avail => exact ⟨[], (List.append_nil _).symm⟩

theorem run_append_only (ops : List Op) :
    ∀ s : Session, ∃ t, (run s ops).all_children = s.all_children ++ t := by
  induction ops with
  | nil => intro s; exact ⟨[], by simp [run]⟩
  | cons op ops ih =>
    intro s
    obtain ⟨u, hu⟩ := step_exists_append s op
    obtain ⟨t, ht⟩ := ih (step s op).1
    refine ⟨u ++ t, ?_⟩
    show (run (step s op).1 ops).all_children = _
    rw [ht, hu, List.append_assoc]

theorem runCalls_flatten (cs : List (Option (List Node) × Str)) :
    ∀ s : Session,
      (runCalls s cs).all_children = s.all_children ++ (callOutputs s cs).flatten := by
  induction cs with
  | nil => intro s; simp [runCalls, run, callOutputs]
  | cons c cs ih =>
    intro s
    have hrc : runCalls s (c :: cs) = runCalls (step s (.extract c.1 c.2)).1 cs := rfl
    have hco : callOutputs s (c :: cs) =
        extractRecords c.1 c.2 :: callOutputs (step s (.extract c.1 c.2)).1 cs := rfl
    rw [hrc, hco, ih, List.flatten_cons]
    show (step s (.extract c.1 c.2)).1.all_children ++ _ = _
    rw [show (step s (.extract c.1 c.2)).1.all_children =
      s.all_children ++ extractRecords c.1 c.2 from rfl, List.append_assoc]

/-! Claim-level theorems. -/

/-- C1 (amended): for every document whose child anchors all carry a
well-formed `href` (one matching `/child/([^/]+)`), with distinct
extracted identifiers, `extract` produces exactly one record per
anchor, in document order, and every record's id is non-empty.  (The
original claim also asserted non-empty names; `c1_counterexample`
refutes that part.) -/
theorem c1_extract_wellFormed (doc : List Node)
    (hwf : ∀ p ∈ childAnchors doc, (childIdFrom (hrefOf p.2)).isSome = true)
    (_hdist : ((childAnchors doc).map (fun p => childIdFrom (hrefOf p.2))).Nodup) :
    (childAnchors doc).map (fun p => processAnchor p.1 p.2) =
      (extractPairs doc).map some ∧
    (extractPairs doc).length = (childAnchors doc).length ∧
    ∀ r ∈ extractPairs doc, r.1 ≠ [] := by
  have hmap : (childAnchors doc).map (fun p => processAnchor p.1 p.2) =
      (extractPairs doc).map some :=
    filterMap_eq_map_some _ _ (fun p hp => processAnchor_isSome (hwf p hp))
  refine ⟨hmap, ?_, ?_⟩
  · have hlen := congrArg List.length hmap
    simpa using hlen.symm
  · intro r hr
    obtain ⟨p, _, hps⟩ := List.mem_filterMap.mp hr
    exact childIdFrom_ne_nil _ _ (processAnchor_id hps)

/-- C1 witness: two well-formed anchors with distinct ids. -/
theorem c1_extract_wellFormed_witness :
    ((∀ p ∈ childAnchors c1GoodDoc, (childIdFrom (hrefOf p.2)).isSome = true) ∧
     ((childAnchors c1GoodDoc).map (fun p => childIdFrom (hrefOf p.2))).Nodup) ∧
    ((childAnchors c1GoodDoc).map (fun p => processAnchor p.1 p.2) =
       (extractPairs c1GoodDoc).map some ∧
     (extractPairs c1GoodDoc).length = (childAnchors c1GoodDoc).length ∧
     ∀ r ∈ extractPairs c1GoodDoc, r.1 ≠ []) :=
  ⟨⟨by decide, by decide⟩, c1_extract_wellFormed c1GoodDoc (by decide) (by decide)⟩

/-- C1 counterexample: `c1BadDoc` has one well-formed child anchor
(with trivially distinct identifiers), yet its single record's name is
the empty string, because the class-marked name division sanitizes to
`""` and no ancestor row exists. -/
theorem c1_counterexample :
    (childAnchors c1BadDoc).length = 1 ∧
    (∀ p ∈ childAnchors c1BadDoc, (childIdFrom (hrefOf p.2)).isSome = true) ∧
    ((childAnchors c1BadDoc).map (fun p => childIdFrom (hrefOf p.2))).Nodup ∧
    extractPairs c1BadDoc = [("5".toList, [])] ∧
    ¬ (∀ r ∈ extractPairs c1BadDoc, r.2 ≠ []) := by decide

/-- C2: the accumulated list is append-only across any sequence of
extract and export operations — the state after any run extends the
initial list, its length never decreases, and neither export operation
changes the session at all (whether it succeeds or fails). -/
theorem c2_append_only (s : Session) (ops : List Op) :
    (∃ t, (run s ops).all_children = s.all_children ++ t) ∧
    s.all_children.length ≤ (run s ops).all_children.length ∧
    (step s Op.exportCsv).1 = s ∧
    (∀ avail, (step s (Op.exportExcel avail)).1 = s) := by
  obtain ⟨t, ht⟩ := run_append_only ops s
  refine ⟨⟨t, ht⟩, ?_, rfl, fun _ => rfl⟩
  rw [ht]
  simp

/-- C3: each `extract` call returns exactly the records it produced
(not the cumulative set) and appends those same records in order;
after any sequence of calls the accumulated list is the initial list
followed by the concatenation of the per-call returns, so its length
is the initial length plus the sum of the returned lengths. -/
theorem c3_per_call_and_sum (s : Session) (cs : List (Option (List Node) × Str)) :
    (∀ doc now, step s (.extract doc now) =
      ({ all_children := s.all_children ++ extractRecords doc now },
        .records (extractRecords doc now))) ∧
    (runCalls s cs).all_children = s.all_children ++ (callOutputs s cs).flatten ∧
    (runCalls s cs).all_children.length =
      s.all_children.length + ((callOutputs s cs).map List.length).sum := by
  refine ⟨fun doc now => rfl, runCalls_flatten cs s, ?_⟩
  rw [runCalls_flatten cs s]
  simp [List.length_append, List.length_flatten]

/-- C4 (corrected): on the spec's example
`<a href="/child/7/">  overview profile  </a>` the name is resolved
from the anchor's own sanitized text (tier iii), giving
`"overview profile"`; the ancestor-row fallback is not consulted
because that name is neither empty nor `"Unknown"`. -/
theorem c4_amended :
    ((descendants c4Anchor).find? isNameDiv).isNone = true ∧
    ((descendants c4Anchor).find? isWordDiv).isNone = true ∧
    findChildName c4Anchor = sanitize (nodeText c4Anchor) ∧
    findChildName c4Anchor = "overview profile".toList ∧
    extractPairs c4Doc = [("7".toList, "overview profile".toList)] := by decide

/-- C4 counterexample: the claim predicts the name comes from the
ancestor-row fallback or is `"Unknown"`; here no ancestor row exists,
yet the name is `"overview profile"`, not `"Unknown"`. -/
theorem c4_counterexample :
    extractPairs c4Doc = [("7".toList, "overview profile".toList)] ∧
    (∀ p ∈ childAnchors c4Doc, (p.1.find? isRowDiv).isNone = true) ∧
    ¬ (∀ r ∈ extractPairs c4Doc, r.2 = "Unknown".toList) := by decide

/-- C5: with an empty accumulated list both exports fail (no file
content is produced) and the session is unchanged; the failure is a
returned `none`, not an exception — the step function is total. -/
theorem c5_empty_export (s : Session) (h : s.all_children = []) :
    exportCsvContent s = none ∧
    (∀ avail, exportExcelRows s avail = none) ∧
    step s Op.exportCsv = (s, .csvFile none) ∧
    (∀ avail, step s (Op.exportExcel avail) = (s, .excelFile none)) := by
  refine ⟨?_, ?_, ?_, ?_⟩ <;>
    simp [exportCsvContent, exportExcelRows, step, h]

/-- C5 witness: the empty session. -/
theorem c5_empty_export_witness :
    (Session.mk [] : Session).all_children = [] ∧
    (exportCsvContent ⟨[]⟩ = none ∧
     (∀ avail, exportExcelRows ⟨[]⟩ avail = none) ∧
     step ⟨[]⟩ Op.exportCsv = (⟨[]⟩, .csvFile none) ∧
     (∀ avail, step ⟨[]⟩ (Op.exportExcel avail) = (⟨[]⟩, .excelFile none))) :=
  ⟨rfl, c5_empty_export ⟨[]⟩ rfl⟩

/-- C6: `extract` never fails the caller — on unparseable or empty
input it returns `[]` and leaves the session unchanged, and a failing
(skipped) anchor is isolated: removing it from the anchor list leaves
every other anchor's record intact. -/
theorem c6_contained_failures (s : Session) (now : Str)
    (xs ys : List (List Node × Node)) (p : List Node × Node)
    (h : processAnchor p.1 p.2 = none) :
    step s (.extract none now) = (s, .records []) ∧
    (xs ++ p :: ys).filterMap (fun q => processAnchor q.1 q.2) =
      (xs ++ ys).filterMap (fun q => processAnchor q.1 q.2) := by
  constructor
  · show (⟨s.all_children ++ []⟩, OpResult.records []) = (s, .records [])
    rw [List.append_nil]
  · simp only [List.filterMap_append, List.filterMap_cons, h]

/-- C6 witness: a skipped anchor next to a productive one. -/
theorem c6_contained_failures_witness :
    processAnchor ([] : List Node) badAnchor = none ∧
    (step ⟨[]⟩ (.extract none []) = (⟨[]⟩, .records []) ∧
     (([] : List (List Node × Node)) ++
         (([] : List Node), badAnchor) :: [(([] : List Node), okAnchor)]).filterMap
         (fun q => processAnchor q.1 q.2) =
       (([] : List (List Node × Node)) ++ [(([] : List Node), okAnchor)]).filterMap
         (fun q => processAnchor q.1 q.2)) :=
  ⟨by decide,
   c6_contained_failures ⟨[]⟩ [] [] [(([] : List Node), okAnchor)]
     ([], badAnchor) (by decide)⟩

/-- C7: an anchor whose `href` has no `/child/([^/]+)` match produces
no record, and the remaining anchors of the same call are processed
exactly as if the bad anchor were absent. -/
theorem c7_unmatched_href_skipped (anc : List Node) (a : Node)
    (xs ys : List (List Node × Node))
    (h : childIdFrom (hrefOf a) = none) :
    processAnchor anc a = none ∧
    (xs ++ (anc, a) :: ys).filterMap (fun q => processAnchor q.1 q.2) =
      (xs ++ ys).filterMap (fun q => processAnchor q.1 q.2) := by
  have hnone : processAnchor anc a = none := processAnchor_none_of_id_none h
  refine ⟨hnone, ?_⟩
  simp only [List.filterMap_append, List.filterMap_cons, hnone]

/-- C7 witness: `href="/child/"` is selected but yields no id; the
well-formed anchor after it still yields its record. -/
theorem c7_unmatched_href_skipped_witness :
    childIdFrom (hrefOf badAnchor) = none ∧
    (processAnchor ([] : List Node) badAnchor = none ∧
     (([] : List (List Node × Node)) ++
         (([] : List Node), badAnchor) :: [(([] : List Node), okAnchor)]).filterMap
         (fun q => processAnchor q.1 q.2) =
       (([] : List (List Node × Node)) ++ [(([] : List Node), okAnchor)]).filterMap
         (fun q => processAnchor q.1 q.2)) ∧
    extractPairs [badAnchor, okAnchor] = [("3".toList, "Bob".toList)] :=
  ⟨by decide,
   c7_unmatched_href_skipped [] badAnchor [] [(([] : List Node), okAnchor)] (by decide),
   by decide⟩

/-- C8: sanitization is idempotent, a string of NBSPs and newlines
sanitizes to the empty string, and the empty input yields empty
output. -/
theorem c8_sanitize_idempotent (s t : Str) (h : ∀ c ∈ t, c = '\xa0' ∨ c = '\n') :
    sanitize (sanitize s) = sanitize s ∧ sanitize t = [] ∧ sanitize ([] : Str) = [] :=
  ⟨sanitize_idem s, sanitize_ws_only t h, rfl⟩

/-- C8 witness: a concrete messy string and an NBSP/newline string. -/
theorem c8_sanitize_idempotent_witness :
    (∀ c ∈ ['\xa0', '\n', '\xa0'], c = '\xa0' ∨ c = '\n') ∧
    (sanitize (sanitize " \xa0a  b ".toList) = sanitize " \xa0a  b ".toList ∧
     sanitize ['\xa0', '\n', '\xa0'] = [] ∧ sanitize ([] : Str) = []) :=
  ⟨by decide,
   c8_sanitize_idempotent " \xa0a  b ".toList ['\xa0', '\n', '\xa0'] (by decide)⟩

/-- C9: exporting a non-empty accumulated list writes the header plus
one row per record in session order, and re-parsing the CSV recovers
every row — in particular each record's `id` and `name` — exactly. -/
theorem c9_csv_round_trip (recs : List ChildRec) (h : recs ≠ []) :
    exportCsvContent ⟨recs⟩ = some (writeCsv recs) ∧
    parseCsv (writeCsv recs) = csvHeader :: recs.map fieldsOf ∧
    ((parseCsv (writeCsv recs)).drop 1).map (fun row => row.take 2) =
      recs.map (fun r => [r.id, r.name]) := by
  have h2 : parseCsv (writeCsv recs) = csvHeader :: recs.map fieldsOf := by
    unfold writeCsv
    apply parseCsv_writeRows
    intro r hr
    rcases List.mem_cons.mp hr with h1 | h1
    · subst h1; simp [csvHeader]
    · obtain ⟨x, _, rfl⟩ := List.mem_map.mp h1
      simp [fieldsOf]
  refine ⟨by simp [exportCsvContent, h], h2, ?_⟩
  rw [h2]
  simp [fieldsOf]

/-- C9 witness: records containing the delimiter and quote characters. -/
theorem c9_csv_round_trip_witness :
    c9Recs ≠ [] ∧
    (exportCsvContent ⟨c9Recs⟩ = some (writeCsv c9Recs) ∧
     parseCsv (writeCsv c9Recs) = csvHeader :: c9Recs.map fieldsOf ∧
     ((parseCsv (writeCsv c9Recs)).drop 1).map (fun row => row.take 2) =
       c9Recs.map (fun r => [r.id, r.name])) :=
  ⟨by decide, c9_csv_round_trip c9Recs (by decide)⟩

/-- C10: there is an input on which `extract` produces a record whose
name is a non-empty, whitespace-only string: the ancestor-row recovery
keeps the residual `" "` left after stripping the literals. -/
theorem c10_whitespace_only_name :
    extractPairs c10Doc = [("9".toList, [' '])] ∧
    (∃ r ∈ extractPairs c10Doc, r.2 ≠ [] ∧ ∀ c ∈ r.2, isWs c = true) := by decide

end ChildExtractor
